import Mathlib

/-!
Verification of the keisho single-inheritance hierarchy library
(src/src/lib.rs) against its specification.

Shallow embedding notes.

A class in the Rust library is a type implementing the Hierarchy trait:
it has exactly one parent (reached through Deref), a dispatch table built
by Vt::new followed by a sequence of Vt::override calls, and a TypeId.
We model a class as an inductive value carrying a numeric tag (standing
for whatever distinguishes otherwise structurally identical sibling
types), the slot supplied to Vt::new for its own level, the list of
override entries (target ancestor depth, written slot) in the order they
are applied, and the parent class.

TypeId.of in Rust is injective on types, and the library only ever
compares TypeIds for equality, so we model the type identity of a class
by the class value itself and model TypeId comparison by decidable
equality of Class values.

Function pointers (the table slots) are modelled as opaque numeric codes
(Slot := Nat); calling a function pointer on a raw pointer is modelled by
an arbitrary application map passed as a parameter where dispatch results
are stated. Raw pointers are addresses (Nat). NonNull.cast does not
change the address, so upcast and downcast keep the pointer value.

The depth field of ClassInfo is a u16 computed by constant evaluation as
parent depth + 1; constant evaluation rejects arithmetic overflow at
compile time, so any hierarchy that compiles has every depth below 2 ^ 16
and the u16 content equals the mathematical depth. Class.depth models
that content as a Nat; Class.depth16 separately models the wrapping
16-bit computation for the numeric-bounds claim. The u16 subtraction
performed by map_to_virtual at runtime wraps on underflow in release
builds, which sub16 models exactly.
-/

namespace Keisho

/-- Opaque code of a function pointer stored in a dispatch table slot. -/
abbrev Slot := Nat

/-- A class of the hierarchy: either the root Object, or a derived class
with a distinguishing tag, the slot passed to Vt.new for its own level,
its override entries (target depth, slot) in application order, and its
parent. -/
inductive Class where
  | object : Class
  | derived (tag : Nat) (own : Slot) (ovs : List (Nat × Slot)) (parent : Class) : Class
deriving DecidableEq

/-- Depth of a class: 0 for the root, parent depth + 1 otherwise.
Models the depth field of ClassInfo, whose constant evaluation rejects
u16 overflow, so the field content is the mathematical depth. -/
def Class.depth : Class → Nat
  | .object => 0
  | .derived _ _ _ p => p.depth + 1

/-- The wrapping 16-bit computation of the depth field, as the
expression parent depth + 1 would behave under wraparound u16
arithmetic. -/
def Class.depth16 : Class → Nat
  | .object => 0
  | .derived _ _ _ p => (p.depth16 + 1) % 65536

/-- The downable predicate of ClassInfo. The root returns false for
every identity; a derived class accepts its own identity or defers to
its parent. Type identities are modelled by Class values themselves. -/
def Class.downable : Class → Class → Bool
  | .object, _ => false
  | .derived tag own ovs p, q =>
      decide (Class.derived tag own ovs p = q) || p.downable q

/-- The ancestor chain of a class, from the class itself down to the
root, the class and the root included. -/
def Class.chain : Class → List Class
  | .object => [Class.object]
  | .derived tag own ovs p => Class.derived tag own ovs p :: p.chain

/-- The compile-time Upcastable relation: a class is upcastable to its
parent, transitively to every proper ancestor, and the root is
upcastable to itself. Mirrors the three unsafe impl blocks. -/
def Class.upcastable : Class → Class → Bool
  | .object, u => decide (u = Class.object)
  | .derived _ _ _ p, u => decide (u = p) || p.upcastable u

/-- The single slot of the root table, Object.TABLE. -/
def rootSlot : Slot := 0

/-- One Vt.override step: given the slot count of the table being built
(len, the vsize of the class) and the slot count of the target ancestor
level (sub, the vsize of the override target), write slot f at index
len - sub. -/
def vtOverride (len sub : Nat) (t : List Slot) (f : Slot) : List Slot :=
  t.set (len - sub) f

/-- Application of a list of override entries to a table of len slots,
in order: entry (v, f) performs the Vt.override step for a target of
vsize v + 1. -/
def applyOvs (len : Nat) (ovs : List (Nat × Slot)) (t : List Slot) : List Slot :=
  ovs.foldl (fun t z => vtOverride len (z.1 + 1) t z.2) t

/-- The dispatch table of a class: the root table is the single default
slot; a derived class prepends its own slot to the parent table
(Vt.new) and then applies its override entries in order. The vsize of a
class at depth d is d + 1 slots, so an override entry targeting depth v
writes at index (depth + 1) - (v + 1). -/
def Class.table : Class → List Slot
  | .object => [rootSlot]
  | .derived _ own ovs p => applyOvs (p.depth + 2) ovs (own :: p.table)

/-- Well-formedness of the override lists: every override entry of every
class on the chain targets a level at or below the depth of the class
that declares it. In the Rust source a violating entry makes the
constant expression len - sub underflow, which is rejected at compile
time, so every compiling hierarchy is well formed. -/
def Class.WF : Class → Bool
  | .object => true
  | .derived _ _ ovs p => ovs.all (fun z => decide (z.1 ≤ p.depth + 1)) && p.WF

/-- The last override entry of one class for target depth d, if any.
Later entries overwrite earlier ones, so the last one wins. -/
def ovLookup (ovs : List (Nat × Slot)) (d : Nat) : Option Slot :=
  (ovs.reverse.find? (fun z => z.1 == d)).map Prod.snd

/-- Walking up from a class, the override slot for level d installed by
the nearest class that explicitly overrides level d, if any. -/
def Class.nearestOverride : Class → Nat → Option Slot
  | .object, _ => none
  | .derived _ _ ovs p, d =>
      match ovLookup ovs d with
      | some f => some f
      | none => p.nearestOverride d

/-- The converter that level d of the table of a class holds when no
class on the chain overrides level d: the own-level slot supplied to
Vt.new by the ancestor at depth d, or the single root default at depth
0. -/
def Class.defaultConvAt : Class → Nat → Slot
  | .object, _ => rootSlot
  | .derived _ own _ p, d => if p.depth + 1 = d then own else p.defaultConvAt d

/-- A handle: the raw pointer address, the current static (API-level)
class of the pointer type parameter, and the concrete class whose
ClassInfo the info field references. The static class is compile-time
information in Rust; it is carried here explicitly because depth
arithmetic during dispatch depends on it. -/
structure Handle where
  ptr : Nat
  static : Class
  info : Class
deriving DecidableEq

/-- Construction of a handle from a concrete-typed pointer (the From
impl): the info field is bound to the ClassInfo of the pointed-to
concrete class. -/
def Handle.fromPtr (p : Nat) (c : Class) : Handle :=
  { ptr := p, static := c, info := c }

/-- Handle.upcast: retypes the handle to ancestor q; the pointer is cast
(address unchanged) and the info field is kept. -/
def Handle.upcast (h : Handle) (q : Class) : Handle :=
  { ptr := h.ptr, static := q, info := h.info }

/-- Handle.downcast: runtime-checked consuming downcast to q. Succeeds
iff the downable predicate of the info descriptor accepts the identity
of q; on success the pointer is cast (address unchanged) and the info
field kept, on failure the original handle is returned. -/
def Handle.downcast (h : Handle) (q : Class) : Except Handle Handle :=
  if h.info.downable q then
    Except.ok { ptr := h.ptr, static := q, info := h.info }
  else
    Except.error h

/-- Handle.downcast_ref: non-consuming borrowing downcast; same check as
downcast, returning an aliasing borrow handle on success and none on
failure. -/
def Handle.downcast_ref (h : Handle) (u : Class) : Option Handle :=
  if h.info.downable u then
    some { ptr := h.ptr, static := u, info := h.info }
  else
    none

/-- Handle.downcast_mut: the exclusive borrowing variant; its body is
identical to downcast_ref up to the borrow kind of the produced
pointer. -/
def Handle.downcast_mut (h : Handle) (u : Class) : Option Handle :=
  if h.info.downable u then
    some { ptr := h.ptr, static := u, info := h.info }
  else
    none

/-- Wrapping 16-bit subtraction, the behaviour of a - b on u16 values
in release builds (for a and b below 2 ^ 16). -/
def sub16 (a b : Nat) : Nat := (a + 65536 - b) % 65536

/-- The slot offset computed by map_to_virtual: the u16 difference
between the concrete depth recorded in the descriptor and the static
depth of the current pointer type. -/
def Handle.offset (h : Handle) : Nat := sub16 h.info.depth h.static.depth

/-- Handle.map_to_virtual: reads the slot at the computed offset from
the table of the concrete class, located through the vtable address of
the descriptor. The unchecked pointer read of the source is modelled by
an optional index lookup. -/
def Handle.map_to_virtual (h : Handle) : Option Slot :=
  h.info.table[h.offset]?

/-- Handle.virtual: applies the slot function fetched by map_to_virtual
to the raw pointer. The semantics of calling a function pointer is the
parameter ap. -/
def Handle.virtualView (ap : Slot → Nat → Nat) (h : Handle) : Option Nat :=
  h.map_to_virtual.map (fun s => ap s h.ptr)

/-- Handle.virtual_mut: same computation as Handle.virtual, returning
the exclusive view. -/
def Handle.virtualMutView (ap : Slot → Nat → Nat) (h : Handle) : Option Nat :=
  h.map_to_virtual.map (fun s => ap s h.ptr)

/-- Handles reachable through the public construction and casting API:
built from a concrete-typed pointer, then any sequence of compile-time
legal upcasts, consuming downcasts and borrowing downcasts. -/
inductive Reaches : Handle → Prop where
  | construct (p : Nat) (c : Class) : Reaches (Handle.fromPtr p c)
  | up {h : Handle} (q : Class) (hleg : h.static.upcastable q = true)
      (hr : Reaches h) : Reaches (h.upcast q)
  | down {h h' : Handle} (q : Class) (hleg : q.upcastable h.static = true)
      (hr : Reaches h) (hok : h.downcast q = Except.ok h') : Reaches h'
  | downRef {h h' : Handle} (u : Class) (hleg : u.upcastable h.static = true)
      (hr : Reaches h) (hok : h.downcast_ref u = some h') : Reaches h'
  | downMut {h h' : Handle} (u : Class) (hleg : u.upcastable h.static = true)
      (hr : Reaches h) (hok : h.downcast_mut u = some h') : Reaches h'

/-! Helper lemmas shared by several claims. -/

/-- The downable predicate accepts exactly the identities of the
non-root classes on the chain. -/
theorem downable_iff_mem_chain (c q : Class) :
    c.downable q = true ↔ (q ∈ c.chain ∧ q ≠ Class.object) := by
  induction c with
  | object =>
      simp [Class.downable, Class.chain]
  | derived tag own ovs p ih =>
      simp only [Class.downable, Class.chain, Bool.or_eq_true, decide_eq_true_eq,
        List.mem_cons, ih]
      constructor
      · rintro (rfl | ⟨hm, hq⟩)
        · exact ⟨Or.inl rfl, by simp⟩
        · exact ⟨Or.inr hm, hq⟩
      · rintro ⟨hm | hm, hq⟩
        · exact Or.inl hm.symm
        · exact Or.inr ⟨hm, hq⟩

/-- Every member of the chain of a class lies at depth at most the
depth of the class. -/
theorem depth_le_of_mem_chain {q c : Class} (h : q ∈ c.chain) :
    q.depth ≤ c.depth := by
  induction c with
  | object =>
      simp only [Class.chain, List.mem_singleton] at h
      subst h
      exact Nat.le_refl _
  | derived tag own ovs p ih =>
      rcases List.mem_cons.mp h with rfl | hm
      · exact Nat.le_refl _
      · exact Nat.le_succ_of_le (ih hm)

/-- A class accepted by the downable predicate lies at depth at most
the depth of the accepting class. -/
theorem depth_le_of_downable {c q : Class} (h : c.downable q = true) :
    q.depth ≤ c.depth :=
  depth_le_of_mem_chain ((downable_iff_mem_chain c q).mp h).1

/-- A legal upcast target lies at depth at most the depth of the
source class. -/
theorem depth_le_of_upcastable {c a : Class} (h : c.upcastable a = true) :
    a.depth ≤ c.depth := by
  induction c with
  | object =>
      simp only [Class.upcastable, decide_eq_true_eq] at h
      subst h
      exact Nat.le_refl _
  | derived tag own ovs p ih =>
      simp only [Class.upcastable, Bool.or_eq_true, decide_eq_true_eq] at h
      rcases h with rfl | h
      · exact Nat.le_succ_of_le (Nat.le_refl _)
      · exact Nat.le_succ_of_le (ih h)

/-- A non-root class is accepted by its own downable predicate. -/
theorem downable_self {c : Class} (h : c ≠ Class.object) :
    c.downable c = true := by
  cases c with
  | object => exact absurd rfl h
  | derived tag own ovs p => simp [Class.downable]

/-- Every handle produced by the API keeps the static depth at or below
the concrete depth recorded in its descriptor. -/
theorem reaches_static_depth_le {h : Handle} (hr : Reaches h) :
    h.static.depth ≤ h.info.depth := by
  induction hr with
  | construct p c => exact Nat.le_refl _
  | up q hleg hr ih =>
      exact Nat.le_trans (depth_le_of_upcastable hleg) ih
  | down q hleg hr hok ih =>
      simp only [Handle.downcast] at hok
      split at hok
      case isTrue hd =>
        cases hok
        exact depth_le_of_downable hd
      case isFalse hd => exact Except.noConfusion hok
  | downRef u hleg hr hok ih =>
      simp only [Handle.downcast_ref] at hok
      split at hok
      case isTrue hd =>
        cases hok
        exact depth_le_of_downable hd
      case isFalse hd => exact Option.noConfusion hok
  | downMut u hleg hr hok ih =>
      simp only [Handle.downcast_mut] at hok
      split at hok
      case isTrue hd =>
        cases hok
        exact depth_le_of_downable hd
      case isFalse hd => exact Option.noConfusion hok

/-! Table lemmas. -/

theorem applyOvs_nil (len : Nat) (t : List Slot) : applyOvs len [] t = t := rfl

theorem applyOvs_cons (len : Nat) (z : Nat × Slot) (l : List (Nat × Slot))
    (t : List Slot) :
    applyOvs len (z :: l) t = applyOvs len l (vtOverride len (z.1 + 1) t z.2) := rfl

/-- Applying override entries preserves the number of slots. -/
theorem applyOvs_length (len : Nat) (ovs : List (Nat × Slot)) (t : List Slot) :
    (applyOvs len ovs t).length = t.length := by
  induction ovs generalizing t with
  | nil => rfl
  | cons z l ih =>
      rw [applyOvs_cons, ih]
      simp [vtOverride]

/-- Two find? scans with pointwise equal predicates agree. -/
theorem find?_congr_on {α : Type} (p q : α → Bool) (l : List α)
    (h : ∀ a ∈ l, p a = q a) : l.find? p = l.find? q := by
  induction l with
  | nil => rfl
  | cons x xs ih =>
      have hx := h x (by simp)
      have ih2 := ih (fun a ha => h a (by simp [ha]))
      cases hq : q x with
      | true => simp [List.find?, hx, hq]
      | false => simp [List.find?, hx, hq, ih2]

/-- Reading one index after a sequence of override writes: the last
entry targeting the index wins, otherwise the original slot shows
through. -/
theorem applyOvs_getElem (len : Nat) (ovs : List (Nat × Slot)) (t : List Slot)
    (i : Nat) (hi : i < t.length) :
    (applyOvs len ovs t)[i]? =
      match ovs.reverse.find? (fun z => len - (z.1 + 1) == i) with
      | some z => some z.2
      | none => t[i]? := by
  induction ovs generalizing t with
  | nil => rfl
  | cons z l ih =>
      have hi2 : i < (vtOverride len (z.1 + 1) t z.2).length := by
        simpa [vtOverride] using hi
      rw [applyOvs_cons, ih (vtOverride len (z.1 + 1) t z.2) hi2]
      simp only [List.reverse_cons, List.find?_append]
      cases hfind : l.reverse.find? (fun z => len - (z.1 + 1) == i) with
      | some w => simp
      | none =>
          simp only [Option.none_or]
          cases hz : (len - (z.1 + 1) == i) with
          | true =>
              have hgz : len - (z.1 + 1) = i := by simpa using hz
              subst hgz
              simp [List.find?, hz, vtOverride, List.getElem?_set_self hi]
          | false =>
              have hgz : len - (z.1 + 1) ≠ i := by simpa using hz
              simp [List.find?, hz, vtOverride, List.getElem?_set_ne hgz]

/-- The table of a class has depth + 1 slots. -/
theorem table_length (c : Class) : c.table.length = c.depth + 1 := by
  induction c with
  | object => rfl
  | derived tag own ovs p ih =>
      show (applyOvs (p.depth + 2) ovs (own :: p.table)).length = p.depth + 1 + 1
      rw [applyOvs_length]
      simp [ih]

/-- No class strictly above depth d on a well-formed chain can carry an
override entry for level d, so the nearest-override scan past the end
of the chain is empty. -/
theorem nearestOverride_none_of_lt (c : Class) (d : Nat) (hwf : c.WF = true)
    (hlt : c.depth < d) : c.nearestOverride d = none := by
  induction c with
  | object => rfl
  | derived tag own ovs p ih =>
      simp only [Class.WF, Bool.and_eq_true, List.all_eq_true,
        decide_eq_true_eq] at hwf
      obtain ⟨hall, hwp⟩ := hwf
      have hlt2 : p.depth + 1 < d := hlt
      have hfind : ovs.reverse.find? (fun z => z.1 == d) = none := by
        rw [List.find?_eq_none]
        intro z hz
        have h1 := hall z (List.mem_reverse.mp hz)
        simp only [beq_iff_eq]
        omega
      have hovl : ovLookup ovs d = none := by simp [ovLookup, hfind]
      simp only [Class.nearestOverride, hovl]
      exact ih hwp (by omega)

/-- Slot (depth c - d) of the table of a well-formed class c, for any
level d at or below the depth of c: the last override entry for level d
of the nearest overriding class wins, and with no override anywhere the
own-level slot of the depth-d ancestor (the root default at level 0)
shows through. -/
theorem table_get_nearest (c : Class) : ∀ d : Nat, c.WF = true → d ≤ c.depth →
    c.table[c.depth - d]? =
      some ((c.nearestOverride d).getD (c.defaultConvAt d)) := by
  induction c with
  | object =>
      intro d hwf hd
      have hd0 : d = 0 := Nat.le_zero.mp hd
      subst hd0
      rfl
  | derived tag own ovs p ih =>
      intro d hwf hd
      simp only [Class.WF, Bool.and_eq_true, List.all_eq_true,
        decide_eq_true_eq] at hwf
      obtain ⟨hall, hwp⟩ := hwf
      have hd2 : d ≤ p.depth + 1 := hd
      have hi : p.depth + 1 - d < (own :: p.table).length := by
        simp [table_length p]
        omega
      show (applyOvs (p.depth + 2) ovs (own :: p.table))[p.depth + 1 - d]? = _
      rw [applyOvs_getElem (p.depth + 2) ovs (own :: p.table) (p.depth + 1 - d) hi]
      have hpred :
          ovs.reverse.find? (fun z => p.depth + 2 - (z.1 + 1) == p.depth + 1 - d)
            = ovs.reverse.find? (fun z => z.1 == d) := by
        apply find?_congr_on
        intro z hz
        have h1 := hall z (List.mem_reverse.mp hz)
        rw [Bool.eq_iff_iff]
        simp only [beq_iff_eq]
        omega
      rw [hpred]
      cases hfind : ovs.reverse.find? (fun z => z.1 == d) with
      | some z =>
          have hovl : ovLookup ovs d = some z.2 := by simp [ovLookup, hfind]
          simp [Class.nearestOverride, hovl]
      | none =>
          have hovl : ovLookup ovs d = none := by simp [ovLookup, hfind]
          by_cases hcase : d = p.depth + 1
          · subst hcase
            have h0 : p.depth + 1 - (p.depth + 1) = 0 := by omega
            rw [h0]
            have hnone : p.nearestOverride (p.depth + 1) = none :=
              nearestOverride_none_of_lt p (p.depth + 1) hwp (by omega)
            simp [Class.nearestOverride, hovl, hnone, Class.defaultConvAt]
          · have hdle : d ≤ p.depth := by omega
            have hidx : p.depth + 1 - d = (p.depth - d) + 1 := by omega
            rw [hidx]
            simp only [List.getElem?_cons_succ]
            rw [ih d hwp hdle]
            have hne : p.depth + 1 ≠ d := fun h => hcase h.symm
            simp [Class.nearestOverride, hovl, Class.defaultConvAt, hne]

/-- Exact value of a wrapping u16 subtraction when the minuend fits in
u16 and no underflow occurs. -/
theorem sub16_eq {a b : Nat} (hba : b ≤ a) (ha : a ≤ 65535) :
    sub16 a b = a - b := by
  unfold sub16
  have h1 : a + 65536 - b = 65536 + (a - b) := by omega
  rw [h1, Nat.add_mod_left]
  exact Nat.mod_eq_of_lt (by omega)

/-! Sample hierarchy used by witnesses and counterexamples: cAnimal
derives the root; cDog and cCat are siblings deriving cAnimal, and cDog
overrides the animal-level view (slot 21 at level 1). -/

def cAnimal : Class := Class.derived 1 11 [] Class.object

def cDog : Class := Class.derived 2 12 [(1, 21)] cAnimal

def cCat : Class := Class.derived 3 13 [] cAnimal

/-- A dog-concrete handle upcast to the animal level. -/
def hDogAnimal : Handle := (Handle.fromPtr 4 cDog).upcast cAnimal

/-! Claim theorems. -/

/-- C1 counterexample: the root is on its own ancestor chain, yet the
downable predicate of the root rejects the identity of the root, and a
root-concrete handle cannot be downcast to the root type, contradicting
the claim that downable accepts every identity on the chain including
the root and that root-to-root downcasting succeeds. -/
theorem c1_counterexample :
    Class.object ∈ Class.object.chain
    ∧ Class.object.downable Class.object = false
    ∧ (Handle.fromPtr 0 Class.object).downcast Class.object
        = Except.error (Handle.fromPtr 0 Class.object) := by
  refine ⟨by simp [Class.chain], rfl, rfl⟩

/-- C1 amended: the downable predicate of class C accepts exactly the
identities of the non-root classes on the ancestor chain of C; the
root identity is never accepted, so downcasting a root-concrete handle
to the root type always fails, returning the original handle. -/
theorem c1_downable_amended :
    (∀ c q : Class, c.downable q = true ↔ (q ∈ c.chain ∧ q ≠ Class.object))
    ∧ (∀ p : Nat, (Handle.fromPtr p Class.object).downcast Class.object
        = Except.error (Handle.fromPtr p Class.object)) :=
  ⟨downable_iff_mem_chain, fun _ => rfl⟩

/-- C2: for a handle whose descriptor is that of concrete class C and a
compile-time legal target Q, downcast returns success carrying the
retyped handle (same pointer, same descriptor) iff the downable
predicate of C accepts the identity of Q; when the check fails the
original handle is returned unchanged. -/
theorem c2_downcast_spec (h : Handle) (q : Class)
    (_hleg : q.upcastable h.static = true) :
    (h.downcast q = Except.ok { ptr := h.ptr, static := q, info := h.info }
        ↔ h.info.downable q = true)
    ∧ (h.info.downable q = false → h.downcast q = Except.error h) := by
  refine ⟨⟨?_, ?_⟩, ?_⟩
  · intro hok
    simp only [Handle.downcast] at hok
    split at hok
    · assumption
    · exact Except.noConfusion hok
  · intro hd
    simp [Handle.downcast, hd]
  · intro hd
    simp [Handle.downcast, hd]

/-- C2 witness: a dog-concrete handle statically typed at the root,
downcast to the dog class. -/
theorem c2_downcast_spec_witness :
    (((Handle.fromPtr 7 cDog).upcast Class.object).downcast cDog
        = Except.ok { ptr := 7, static := cDog, info := cDog }
      ↔ cDog.downable cDog = true)
    ∧ (((Handle.fromPtr 7 cDog).upcast Class.object).info.downable cDog = false →
        ((Handle.fromPtr 7 cDog).upcast Class.object).downcast cDog
          = Except.error ((Handle.fromPtr 7 cDog).upcast Class.object)) :=
  c2_downcast_spec ((Handle.fromPtr 7 cDog).upcast Class.object) cDog (by decide)

/-- C3 counterexample: for the root class the round trip fails: a
root-concrete handle, legally upcast to the root, cannot be downcast
back to the root; the downcast returns the error branch instead of the
claimed success. -/
theorem c3_counterexample :
    Class.object.upcastable Class.object = true
    ∧ Class.object ∈ Class.object.chain
    ∧ ((Handle.fromPtr 0 Class.object).upcast Class.object).downcast Class.object
        = Except.error ((Handle.fromPtr 0 Class.object).upcast Class.object) := by
  refine ⟨rfl, by simp [Class.chain], rfl⟩

/-- C3 amended: for every non-root concrete class C and every
compile-time legal upcast target A, upcasting a C-concrete handle to A
and downcasting back to C succeeds and yields a handle equal to the
original: same pointer, same static type, same descriptor. -/
theorem c3_roundtrip_amended (p : Nat) (c a : Class) (hc : c ≠ Class.object)
    (_ha : c.upcastable a = true) :
    ((Handle.fromPtr p c).upcast a).downcast c
      = Except.ok (Handle.fromPtr p c) := by
  simp [Handle.downcast, Handle.upcast, Handle.fromPtr, downable_self hc]

/-- C3 witness: the dog-to-root round trip at pointer 5. -/
theorem c3_roundtrip_amended_witness :
    ((Handle.fromPtr 5 cDog).upcast Class.object).downcast cDog
      = Except.ok (Handle.fromPtr 5 cDog) :=
  c3_roundtrip_amended 5 cDog Class.object (by decide) (by decide)

/-- C4: the descriptor field is bound at construction to the descriptor
of the concrete class, and upcast, downcast (success or failure),
downcast_ref and downcast_mut all produce handles carrying exactly the
same descriptor; no operation replaces it. -/
theorem c4_descriptor_invariant (pn : Nat) (c : Class) (h : Handle)
    (q u : Class) :
    (Handle.fromPtr pn c).info = c
    ∧ (h.upcast q).info = h.info
    ∧ (match h.downcast q with
        | Except.ok h2 => h2.info
        | Except.error h2 => h2.info) = h.info
    ∧ ((h.downcast_ref u).getD h).info = h.info
    ∧ ((h.downcast_mut u).getD h).info = h.info := by
  refine ⟨rfl, rfl, ?_, ?_, ?_⟩
  · by_cases hd : h.info.downable q = true <;> simp [Handle.downcast, hd]
  · by_cases hd : h.info.downable u = true <;> simp [Handle.downcast_ref, hd]
  · by_cases hd : h.info.downable u = true <;> simp [Handle.downcast_mut, hd]

/-- C5: for every handle produced by the API on a hierarchy whose
depths fit in u16, dispatch computes the offset as concrete depth minus
static depth, reads the slot at that offset from the table of the
concrete class through the descriptor, and both view functions return
that slot applied to the raw pointer. -/
theorem c5_dispatch (ap : Slot → Nat → Nat) (h : Handle)
    (hr : Reaches h) (hb : h.info.depth ≤ 65535) :
    h.offset = h.info.depth - h.static.depth
    ∧ ∃ s : Slot,
        h.info.table[h.info.depth - h.static.depth]? = some s
        ∧ h.map_to_virtual = some s
        ∧ h.virtualView ap = some (ap s h.ptr)
        ∧ h.virtualMutView ap = some (ap s h.ptr) := by
  have hle := reaches_static_depth_le hr
  have hoff : h.offset = h.info.depth - h.static.depth := sub16_eq hle hb
  have hlt : h.info.depth - h.static.depth < h.info.table.length := by
    rw [table_length]
    omega
  have hmv : h.map_to_virtual
      = some (h.info.table[h.info.depth - h.static.depth]) := by
    simp only [Handle.map_to_virtual, hoff]
    exact List.getElem?_eq_getElem hlt
  refine ⟨hoff, h.info.table[h.info.depth - h.static.depth],
    List.getElem?_eq_getElem hlt, hmv, ?_, ?_⟩
  · simp [Handle.virtualView, hmv]
  · simp [Handle.virtualMutView, hmv]

/-- C5 witness: dispatch of a dog-concrete handle at the animal level,
with addition as the function-pointer semantics. -/
theorem c5_dispatch_witness :
    hDogAnimal.offset = hDogAnimal.info.depth - hDogAnimal.static.depth
    ∧ ∃ s : Slot,
        hDogAnimal.info.table[hDogAnimal.info.depth
          - hDogAnimal.static.depth]? = some s
        ∧ hDogAnimal.map_to_virtual = some s
        ∧ hDogAnimal.virtualView (fun s q => s + q) = some (s + hDogAnimal.ptr)
        ∧ hDogAnimal.virtualMutView (fun s q => s + q)
            = some (s + hDogAnimal.ptr) :=
  c5_dispatch (fun s q => s + q) hDogAnimal
    (Reaches.up cAnimal (by decide) (Reaches.construct 4 cDog)) (by decide)

/-- C6 counterexample: a class that overrides an ancestor level has a
table different from its own converter prepended to the parent table;
and at a non-root level with no override anywhere the slot is the
own-level converter of that ancestor, which differs from the root
default, refuting the claim as stated. -/
theorem c6_counterexample :
    (Class.derived 2 3 [(0, 9)] Class.object).table = [3, 9]
    ∧ (3 : Slot) :: Class.object.table = [3, 0]
    ∧ (Class.derived 1 7 [] Class.object).nearestOverride 1 = none
    ∧ (Class.derived 1 7 [] Class.object).table[(Class.derived 1 7 []
        Class.object).depth - 1]? = some 7
    ∧ Class.object.table = [rootSlot]
    ∧ (7 : Slot) ≠ rootSlot := by
  decide

/-- C6 amended: a table is built by prepending the own-level converter
to the parent table and then applying the override entries in order;
each override step for a level-d target replaces exactly the slot at
index depth(C) - d, leaving every other slot unchanged; consequently
slot (depth C - d) equals the last override for level d of the nearest
overriding class at or below C, or, when no class on the chain
overrides level d, the own-level converter supplied by the depth-d
ancestor when its table was built (the root default for d = 0). -/
theorem c6_table_amended :
    (∀ tag own ovs (p : Class),
        (Class.derived tag own ovs p).table
          = applyOvs (p.depth + 2) ovs (own :: p.table))
    ∧ (∀ (cd vd : Nat) (t : List Slot) (f : Slot), vd ≤ cd →
        t.length = cd + 1 →
        (vtOverride (cd + 1) (vd + 1) t f)[cd - vd]? = some f
        ∧ ∀ i : Nat, i ≠ cd - vd →
            (vtOverride (cd + 1) (vd + 1) t f)[i]? = t[i]?)
    ∧ (∀ (c : Class) (d : Nat), c.WF = true → d ≤ c.depth →
        c.table[c.depth - d]?
          = some ((c.nearestOverride d).getD (c.defaultConvAt d))) := by
  refine ⟨fun _ _ _ _ => rfl, ?_, fun c d hwf hd => table_get_nearest c d hwf hd⟩
  intro cd vd t f hv hlen
  have heq : cd + 1 - (vd + 1) = cd - vd := by omega
  constructor
  · have hl : cd - vd < t.length := by omega
    simp only [vtOverride, heq]
    exact List.getElem?_set_self hl
  · intro i hi
    simp only [vtOverride, heq]
    exact List.getElem?_set_ne (fun hh => hi hh.symm)

/-- C6 witness: the table of the dog class, one concrete override step,
and the slot characterization at the animal level of the dog table. -/
theorem c6_table_amended_witness :
    (Class.derived 2 12 [(1, 21)] cAnimal).table
        = applyOvs (cAnimal.depth + 2) [(1, 21)] (12 :: cAnimal.table)
    ∧ ((vtOverride (2 + 1) (1 + 1) [5, 6, 7] 9)[2 - 1]? = some 9
        ∧ ∀ i : Nat, i ≠ 2 - 1 →
            (vtOverride (2 + 1) (1 + 1) [5, 6, 7] 9)[i]? = [5, 6, 7][i]?)
    ∧ cDog.table[cDog.depth - 1]?
        = some ((cDog.nearestOverride 1).getD (cDog.defaultConvAt 1)) :=
  ⟨c6_table_amended.1 2 12 [(1, 21)] cAnimal,
   c6_table_amended.2.1 2 1 [5, 6, 7] 9 (by decide) (by decide),
   c6_table_amended.2.2 cDog 1 (by decide) (by decide)⟩

/-- C7: depth law: the root descriptor records depth 0, every derived
class records the depth of its parent plus one, and consequently depth
plus one is the length of the ancestor chain. -/
theorem c7_depth_law :
    Class.object.depth = 0
    ∧ (∀ tag own ovs (p : Class),
        (Class.derived tag own ovs p).depth = p.depth + 1)
    ∧ (∀ c : Class, c.chain.length = c.depth + 1) := by
  refine ⟨rfl, fun _ _ _ _ => rfl, ?_⟩
  intro c
  induction c with
  | object => rfl
  | derived tag own ovs p ih => simp [Class.chain, Class.depth, ih]

/-- C8: every handle reachable from a concrete-typed construction by
compile-time legal upcasts and runtime-checked downcasts keeps its
static depth at or below the concrete depth recorded in the descriptor,
so the u16 subtraction of dispatch never underflows: the computed
offset is the exact difference. -/
theorem c8_no_underflow (h : Handle) (hr : Reaches h)
    (hb : h.info.depth ≤ 65535) :
    h.static.depth ≤ h.info.depth
    ∧ h.offset = h.info.depth - h.static.depth :=
  ⟨reaches_static_depth_le hr, sub16_eq (reaches_static_depth_le hr) hb⟩

/-- C8 witness: the dog-concrete handle upcast to the animal level. -/
theorem c8_no_underflow_witness :
    hDogAnimal.static.depth ≤ hDogAnimal.info.depth
    ∧ hDogAnimal.offset = hDogAnimal.info.depth - hDogAnimal.static.depth :=
  c8_no_underflow hDogAnimal
    (Reaches.up cAnimal (by decide) (Reaches.construct 4 cDog)) (by decide)

/-- C9: downcast_ref and downcast_mut apply exactly the runtime check
of the consuming downcast; on success they return a borrowing handle
with the same pointer and the same descriptor, and on failure they
return none (the original handle, being borrowed rather than consumed,
is untouched in either case). -/
theorem c9_borrowing_variants (h : Handle) (u : Class) :
    (h.downcast_ref u).isSome = h.info.downable u
    ∧ h.downcast_mut u = h.downcast_ref u
    ∧ (h.downcast_ref u).isSome = (h.downcast u).isOk
    ∧ (h.info.downable u = true →
        h.downcast_ref u = some { ptr := h.ptr, static := u, info := h.info })
    ∧ (h.info.downable u = false → h.downcast_ref u = none) := by
  refine ⟨?_, rfl, ?_, ?_, ?_⟩
  · simp only [Handle.downcast_ref]
    split <;> simp_all
  · simp only [Handle.downcast_ref, Handle.downcast]
    split <;> rfl
  · intro hd
    simp [Handle.downcast_ref, hd]
  · intro hd
    simp [Handle.downcast_ref, hd]

/-- C9 witness: the borrowing downcasts of a dog-concrete handle,
checked against the cat target. -/
theorem c9_borrowing_variants_witness :
    ((Handle.fromPtr 9 cDog).downcast_ref cCat).isSome
        = (Handle.fromPtr 9 cDog).info.downable cCat
    ∧ (Handle.fromPtr 9 cDog).downcast_mut cCat
        = (Handle.fromPtr 9 cDog).downcast_ref cCat
    ∧ ((Handle.fromPtr 9 cDog).downcast_ref cCat).isSome
        = ((Handle.fromPtr 9 cDog).downcast cCat).isOk
    ∧ ((Handle.fromPtr 9 cDog).info.downable cCat = true →
        (Handle.fromPtr 9 cDog).downcast_ref cCat
          = some { ptr := 9, static := cCat, info := cDog })
    ∧ ((Handle.fromPtr 9 cDog).info.downable cCat = false →
        (Handle.fromPtr 9 cDog).downcast_ref cCat = none) :=
  c9_borrowing_variants (Handle.fromPtr 9 cDog) cCat

/-- Number of scratch slots of the Vt union array, 1 <<< 16. -/
def vtScratchLen : Nat := 1 <<< 16

/-- A chain of n derived classes above the root. -/
def deepChain : Nat → Class
  | 0 => Class.object
  | n + 1 => Class.derived 0 0 [] (deepChain n)

theorem deepChain_depth (n : Nat) : (deepChain n).depth = n := by
  induction n with
  | zero => rfl
  | succ n ih => simp [deepChain, Class.depth, ih]

/-- C10: the depth field is 16-bit: its wrapping computation agrees
with the true depth exactly up to depth 65535 and wraps to 0 at depth
65536; the override scratch array holds exactly 2 ^ 16 slots; and a
table holds depth + 1 slots, so supported chains have depth at most
65535 and tables at most 2 ^ 16 slots. -/
theorem c10_bounds :
    vtScratchLen = 65536
    ∧ (∀ c : Class, c.depth16 = c.depth % 65536)
    ∧ (∀ c : Class, c.depth16 = c.depth ↔ c.depth ≤ 65535)
    ∧ (deepChain 65536).depth = 65536
    ∧ (deepChain 65536).depth16 = 0
    ∧ (∀ c : Class, c.table.length = c.depth + 1) := by
  have hmod : ∀ c : Class, c.depth16 = c.depth % 65536 := by
    intro c
    induction c with
    | object => rfl
    | derived tag own ovs p ih =>
        show (p.depth16 + 1) % 65536 = (p.depth + 1) % 65536
        rw [ih]
        omega
  refine ⟨rfl, hmod, ?_, deepChain_depth 65536, ?_, table_length⟩
  · intro c
    rw [hmod c]
    omega
  · rw [hmod, deepChain_depth]

end Keisho
